import Mathlib

/-!
Verification of the camproxy repository (an HTTP proxy in front of a
content-addressable blob store) against its natural-language specification.

The Go source is shallowly embedded: strings are modelled as `List Char`
(one `Char` per byte; all inputs of interest are ASCII), byte streams as
`List Nat` with every element `< 256`, the filesystem as an association
list from paths to entries, and the `static-set` worker pool as an explicit
small-step transition system.  Each Lean definition mirrors one Go function
and is named after it where Lean's lexical rules allow.
-/

set_option maxRecDepth 10000

/-! ## Time values and the three `time.Parse` layouts used by `timeParse`

`timeParse` (main.go:445) tries the layouts `time.RFC1123`, `time.UnixDate`
and `time.RFC3339`, in that order.  A parsed `time.Time` is modelled as a
`civil` value (calendar fields plus zone name and offset in minutes); a
`time.Unix(sec, 0)` value is modelled as `unixSec sec`.  The zero value
`time.Time{}` is `0001-01-01 00:00:00 UTC`.
-/

inductive GoTime where
  | civil (year month day hour minute second : Nat) (zone : String) (offMin : Int)
  | unixSec (sec : Int)
deriving DecidableEq, Repr

/-- The Go zero value `time.Time{}`: January 1, year 1, 00:00:00 UTC. -/
def zeroTime : GoTime := .civil 1 1 1 0 0 0 "UTC" 0

def isDigitCh (c : Char) : Bool := '0' ≤ c && c ≤ '9'

def digitVal (c : Char) : Nat := c.toNat - 48

/-- Parse exactly `k` decimal digits (Go `getnum` with `fixed = true`). -/
def parseFixed : Nat → List Char → Option (Nat × List Char)
  | 0, s => some (0, s)
  | _ + 1, [] => none
  | k + 1, c :: s =>
    if isDigitCh c then
      match parseFixed k s with
      | some (n, rest) => some (digitVal c * 10 ^ k + n, rest)
      | none => none
    else none

/-- Parse one or two decimal digits (Go `getnum` with `fixed = false`). -/
def parseNum12 : List Char → Option (Nat × List Char)
  | [] => none
  | c :: s =>
    if isDigitCh c then
      match s with
      | c2 :: s2 => if isDigitCh c2 then some (digitVal c * 10 + digitVal c2, s2)
                    else some (digitVal c, s)
      | [] => some (digitVal c, [])
    else none

def chomp (c : Char) : List Char → Option (List Char)
  | [] => none
  | c2 :: s => if c2 = c then some s else none

def dayNames : List (List Char) :=
  ["Mon".data, "Tue".data, "Wed".data, "Thu".data, "Fri".data, "Sat".data, "Sun".data]

/-- Consume a three-letter weekday name (Go checks it against the name table
but does not check it against the parsed date). -/
def chompDayName (s : List Char) : Option (List Char) :=
  if dayNames.any (fun d => s.take 3 = d) then some (s.drop 3) else none

def monthNames : List (List Char) :=
  ["Jan".data, "Feb".data, "Mar".data, "Apr".data, "May".data, "Jun".data,
   "Jul".data, "Aug".data, "Sep".data, "Oct".data, "Nov".data, "Dec".data]

def chompMonth (s : List Char) : Option (Nat × List Char) :=
  match (List.enumFrom 1 monthNames).find? (fun p => s.take 3 = p.2) with
  | some (i, _) => some (i, s.drop 3)
  | none => none

/-- A run of one or more upper-case letters, as accepted for a `MST`
layout element (the abbreviation is kept, the offset is unknown hence 0). -/
def chompZone (s : List Char) : Option (List Char × List Char) :=
  let zs := s.takeWhile (fun c => 'A' ≤ c && c ≤ 'Z')
  if zs = [] then none else some (zs, s.drop zs.length)

/-- An optional fractional-second suffix: `time.Parse` accepts a decimal
point plus digits after the seconds even when the layout lacks one.  The
fractional value itself is not kept (no claim depends on it). -/
def chompFrac : List Char → List Char
  | '.' :: c :: s =>
    if isDigitCh c then (c :: s).dropWhile isDigitCh else '.' :: c :: s
  | s => s

def isLeapYear (y : Nat) : Bool := y % 4 = 0 && (y % 100 ≠ 0 || y % 400 = 0)

def daysIn (month year : Nat) : Nat :=
  if month = 2 then (if isLeapYear year then 29 else 28)
  else if month = 4 || month = 6 || month = 9 || month = 11 then 30
  else 31

/-- Range checks performed by `time.Parse` after scanning the fields. -/
def fieldsOk (year month day hour minute second : Nat) : Bool :=
  1 ≤ month && month ≤ 12 && 1 ≤ day && day ≤ daysIn month year &&
  hour ≤ 23 && minute ≤ 59 && second ≤ 59

/-- Parse `hh:mm:ss` (hour one or two digits, minute/second fixed width),
plus an optional fractional-second suffix. -/
def parseClock (s : List Char) : Option (Nat × Nat × Nat × List Char) := do
  let (h, s) ← parseNum12 s
  let s ← chomp ':' s
  let (mi, s) ← parseFixed 2 s
  let s ← chomp ':' s
  let (sec, s) ← parseFixed 2 s
  some (h, mi, sec, chompFrac s)

/-- `time.Parse(time.RFC1123, _)`: layout `"Mon, 02 Jan 2006 15:04:05 MST"`. -/
def rfc1123Parse (s : List Char) : Option GoTime := do
  let s ← chompDayName s
  let s ← chomp ',' s
  let s ← chomp ' ' s
  let (day, s) ← parseFixed 2 s
  let s ← chomp ' ' s
  let (month, s) ← chompMonth s
  let s ← chomp ' ' s
  let (year, s) ← parseFixed 4 s
  let s ← chomp ' ' s
  let (h, mi, sec, s) ← parseClock s
  let s ← chomp ' ' s
  let (zone, s) ← chompZone s
  if s = [] && fieldsOk year month day h mi sec then
    some (.civil year month day h mi sec (String.mk zone) 0)
  else none

/-- `time.Parse(time.UnixDate, _)`: layout `"Mon Jan _2 15:04:05 MST 2006"`
(`_2` is a space-padded day). -/
def unixDateParse (s : List Char) : Option GoTime := do
  let s ← chompDayName s
  let s ← chomp ' ' s
  let (month, s) ← chompMonth s
  let s ← chomp ' ' s
  let s := match s with
           | ' ' :: rest => rest
           | _ => s
  let (day, s) ← parseNum12 s
  let s ← chomp ' ' s
  let (h, mi, sec, s) ← parseClock s
  let s ← chomp ' ' s
  let (zone, s) ← chompZone s
  let s ← chomp ' ' s
  let (year, s) ← parseFixed 4 s
  if s = [] && fieldsOk year month day h mi sec then
    some (.civil year month day h mi sec (String.mk zone) 0)
  else none

/-- The `Z07:00` layout element: a literal `Z` (UTC) or `±hh:mm`. -/
def chompNumTZ (s : List Char) : Option (String × Int × List Char) :=
  match s with
  | 'Z' :: rest => some ("UTC", 0, rest)
  | sign :: rest =>
    if sign = '+' || sign = '-' then do
      let (zh, r) ← parseFixed 2 rest
      let r ← chomp ':' r
      let (zm, r) ← parseFixed 2 r
      if zh ≤ 23 && zm ≤ 59 then
        let off : Int := (zh * 60 + zm : Nat)
        some ("", if sign = '-' then -off else off, r)
      else none
    else none
  | [] => none

/-- `time.Parse(time.RFC3339, _)`: layout `"2006-01-02T15:04:05Z07:00"`. -/
def rfc3339Parse (s : List Char) : Option GoTime := do
  let (year, s) ← parseFixed 4 s
  let s ← chomp '-' s
  let (month, s) ← parseFixed 2 s
  let s ← chomp '-' s
  let (day, s) ← parseFixed 2 s
  let s ← chomp 'T' s
  let (h, mi, sec, s) ← parseClock s
  let (zone, off, s) ← chompNumTZ s
  if s = [] && fieldsOk year month day h mi sec then
    some (.civil year month day h mi sec zone off)
  else none

/-- `timeParse` (main.go:445).  The source declares `var ok bool` and in the
success branch returns `t, ok` — `ok` is never assigned `true`, so the
returned flag is `false` even when `time.Parse` succeeded.  On total failure
`t` holds the zero `time.Time` that the last failing `time.Parse` returned. -/
def timeParse (text : List Char) : GoTime × Bool :=
  match rfc1123Parse text with
  | some t => (t, false)
  | none =>
    match unixDateParse text with
    | some t => (t, false)
    | none =>
      match rfc3339Parse text with
      | some t => (t, false)
      | none => (zeroTime, false)

/-- Byte length of a string, Go's `len` (the headers of interest are ASCII,
but the model counts UTF-8 bytes as Go does). -/
def utf8Len (s : List Char) : Nat := (s.map Char.utf8Size).sum

/-- `strconv.ParseInt(s, 10, 64)`, as an `Option`: `none` is a non-nil error
(empty input, a non-digit, or 64-bit overflow — Go reports range errors). -/
def parseInt64 (s : List Char) : Option Int :=
  let digits : List Char → Option Nat := fun ds =>
    if ds ≠ [] && ds.all isDigitCh then
      some (ds.foldl (fun a c => a * 10 + digitVal c) 0)
    else none
  match s with
  | '+' :: rest => do
    let n ← digits rest
    if n ≤ 9223372036854775807 then some (n : Int) else none
  | '-' :: rest => do
    let n ← digits rest
    if n ≤ 9223372036854775808 then some (-(n : Int)) else none
  | _ => do
    let n ← digits s
    if n ≤ 9223372036854775807 then some (n : Int) else none

/-- `parseLastModified` (main.go:343).  The `lastmod` local is threaded
exactly as in the source: the header branch assigns it the parsed value
(with the always-false `ok`), so later `return lastmod` statements can leak
a value even though the guarded early return never fires. -/
def parseLastModified (lastModHeader mtimeHeader : List Char) : GoTime :=
  let (lastmod, ok) :=
    if lastModHeader ≠ [] then timeParse lastModHeader else (zeroTime, false)
  if lastModHeader ≠ [] && ok then lastmod
  else if mtimeHeader = [] then lastmod
  else if 23 ≤ utf8Len mtimeHeader then
    -- both the `ok` branch and the log-and-fall-through branch return the
    -- value that `timeParse` assigned to `lastmod`
    (timeParse mtimeHeader).1
  else
    match parseInt64 mtimeHeader with
    | some qmt => GoTime.unixSec qmt
    | none => lastmod

/-! ## Blob references

`blob.Parse` belongs to the external `camlistore.org/pkg/blob` collaborator;
following the spec (§4.1), it splits at the separator and validates the
digest as hex of the width demanded by the claimed algorithm.  The known
algorithm table is fixed to `sha1` (20 bytes), the hash the spec names. -/

structure BlobRef where
  algo : List Char
  digest : List Char
deriving DecidableEq, Repr

/-- Digest width (in hex characters) for each known algorithm name. -/
def algoHexLen (algo : List Char) : Option Nat :=
  if algo = "sha1".data then some 40 else none

def isHexLowerCh (c : Char) : Bool :=
  ('0' ≤ c && c ≤ '9') || ('a' ≤ c && c ≤ 'f')

/-- Index of the first `'-'`, as `strings.Index`/`bytes.IndexByte` return it
(`none` for Go's `-1`). -/
def indexOfDash : List Char → Option Nat
  | [] => none
  | c :: s => if c = '-' then some 0 else (indexOfDash s).map (· + 1)

/-- Modelled from the spec: `parse(text) -> BlobRef` of the Reference Codec
(§4.1) — the external `blob.Parse`.  Splits at the first separator and
requires the digest to be valid lowercase hex of the algorithm's width. -/
def blobParse (s : List Char) : Option BlobRef :=
  match indexOfDash s with
  | none => none
  | some i =>
    let algo := s.take i
    let digest := s.drop (i + 1)
    match algoHexLen algo with
    | none => none
    | some n =>
      if digest.length = n && digest.all isHexLowerCh then some ⟨algo, digest⟩
      else none

/-- `br.String()`: the canonical `<algo>-<hexdigest>` text. -/
def refText (br : BlobRef) : List Char := br.algo ++ '-' :: br.digest

/-- `br.Valid()`: the ref round-trips through `blob.Parse`. -/
def BlobRef.valid (br : BlobRef) : Bool :=
  match algoHexLen br.algo with
  | some n => br.digest.length = n && br.digest.all isHexLowerCh
  | none => false

/-- `filepath.Join` of two components.  The components used by this program
are nonempty and contain no separators or dot segments, so `Clean` is the
identity on the joined result. -/
def pathJoin (a b : List Char) : List Char := a ++ '/' :: b

/-- `getParanoidPath` (main.go:431): scan the canonical text for the first
`'-'`, then shard the digest as `root/hsh[:3]/hsh[3:6]/<text>.dat`. -/
def getParanoidPath (flagParanoid : List Char) (br : BlobRef) : List Char :=
  if flagParanoid = [] || !br.valid then []
  else
    let txt := refText br
    match indexOfDash txt with
    | some i =>
      let hsh := txt.drop (i + 1)
      pathJoin (pathJoin (pathJoin flagParanoid (hsh.take 3)) ((hsh.drop 3).take 3))
        (txt ++ ".dat".data)
    | none => []

/-! ## POST status resolution (`handle`, main.go:180-255) -/

/-- The status code and message of the POST arm of `handle`, as a function
of the outcomes of its stages: `multipartErr` — `r.MultipartReader()` failed
(line 183, status 400); `saveErr` — `saveMultipartTo`/`saveDirectTo`
returned an error (line 201, status 500); then the count of materialized
files (line 211); `uploadErr` — `u.UploadFile` failed (line 220, 500);
otherwise 201. -/
def handlePost (multipartErr : Bool) (saveErr : Option String)
    (filenames : List (List Char)) (uploadErr : Option String) : Nat × String :=
  if multipartErr then (400, "error parsing request body as multipart/form")
  else
    match saveErr with
    | some e => (500, e)
    | none =>
      match filenames with
      | [] => (400, "no files in request")
      | _ =>
        match uploadErr with
        | some e => (500, e)
        | none => (201, "")

/-! ## Multipart upload ingestion (`saveMultipartTo`, main.go:300) -/

/-- One part yielded by `mr.NextPart()` before the reader errors out, with
the outcomes of the file operations attempted for it. -/
structure MPart where
  filename : List Char      -- `part.FileName()`
  formName : List Char      -- `part.FormName()`
  contentType : String      -- `part.Header.Get("Content-Type")`
  lastModified : List Char  -- `part.Header.Get("Last-Modified")`
  content : List Char       -- the part body, one `Char` per byte
  createErr : Option String -- `os.Create` outcome for this part's file
  copyErr : Option String   -- `io.Copy` outcome
deriving Repr

/-- `filepath.Base`: strip trailing separators, keep the last element. -/
def filepathBase (s : List Char) : List Char :=
  if s = [] then ".".data
  else
    let t := (s.reverse.dropWhile (· = '/')).reverse
    if t = [] then "/".data
    else (t.reverse.takeWhile (· ≠ '/')).reverse

structure MultipartResult where
  filenames : List (List Char)
  mimetypes : List String
  chtimes : List (List Char × GoTime) -- successful `os.Chtimes` applications
  qmtimeOut : List Char               -- final value of the `qmtime` local
  err : Option String
deriving Repr

/-- The loop body of `saveMultipartTo` over the parts the reader yields.

A part with empty file name and form name `mtime` runs
`b := bytes.NewBuffer(make([]byte, 23))` — a buffer whose INITIAL CONTENTS
are 23 zero bytes — then `io.CopyN(b, part, 23)` appends up to 23 body
bytes (a short read returns `io.EOF`, which the source accepts), and
`qmtime = b.String()` keeps the zero bytes as a prefix. -/
def saveMultipartLoop (destDir : List Char) (qmtime : List Char) :
    List MPart → MultipartResult
  | [] => ⟨[], [], [], qmtime, none⟩
  | p :: rest =>
    if p.filename = [] then
      if p.formName = "mtime".data then
        saveMultipartLoop destDir
          (List.replicate 23 (Char.ofNat 0) ++ p.content.take 23) rest
      else saveMultipartLoop destDir qmtime rest
    else
      let fn := pathJoin destDir (filepathBase p.filename)
      match p.createErr with
      | some e => ⟨[], [], [], qmtime, some ("error creating temp file: " ++ e)⟩
      | none =>
        match p.copyErr with
        | some e => ⟨[], [], [], qmtime, some ("error writing to file: " ++ e)⟩
        | none =>
          let lastmod := parseLastModified p.lastModified qmtime
          let r := saveMultipartLoop destDir qmtime rest
          { r with
            filenames := fn :: r.filenames
            mimetypes := p.contentType :: r.mimetypes
            chtimes := (if lastmod ≠ zeroTime then [(fn, lastmod)] else []) ++ r.chtimes }

/-- `saveMultipartTo` (main.go:300).  `terminalErr` is the non-nil error
that finally stops `mr.NextPart()` (ordinary `io.EOF` or a mid-stream
parse failure).  The `for part, err := mr.NextPart(); ...` clause declares
a NEW `err` that shadows the named return value, so `terminalErr` never
reaches the caller: the named `err` is still nil after the loop and the
`if err == io.EOF` rewrite tests that nil value. -/
def saveMultipartTo (destDir : List Char) (parts : List MPart)
    (terminalErr : String) (qmtime : List Char) : MultipartResult :=
  let _ := terminalErr
  saveMultipartLoop destDir qmtime parts

/-! ## The streaming download pipeline (`respWriter`, main.go:374-421)

The underlying `http.ResponseWriter` is modelled as a log of the calls made
on it; `matchMime` stands for the external `camutil.MatchMime` sniffer and
`cacheGet` for `mimeCache.Get`. -/

structure OutState where
  writes : List (List Nat)       -- payload of each underlying `Write` call
  headerCalls : List Nat         -- status of each `WriteHeader` call
  ctypes : List String           -- each `Header().Add("Content-Type", _)`
  cacheSets : List (String × String) -- each `mimeCache.Set`
deriving Repr, DecidableEq

structure RespWriter where
  out : OutState
  name : String
  okMime : String
  headerWritten : Bool
  buf : List Nat
deriving Repr, DecidableEq

/-- `newRespWriter` (main.go:381): an empty or octet-stream mime type is
first looked up in the mime cache under `name`. -/
def newRespWriter (cacheGet : String → String) (name okMime : String) : RespWriter :=
  let okMime :=
    if name ≠ "" && (okMime = "" || okMime = "application/octet-stream") then
      let m := cacheGet name
      if m ≠ "" then m else okMime
    else okMime
  ⟨⟨[], [], [], []⟩, name, okMime, false, []⟩

/-- `respWriter.Write` (main.go:391).  While no header has been written and
the type is unknown (empty or octet-stream), payload accumulates in `buf`;
once 1024 bytes are reached the buffer is sniffed, flushed and the header
written.  A known type writes the header on the first call and passes
through.  Returns the `n - i` byte count the source computes. -/
def respWrite (matchMime : String → List Nat → String) (w : RespWriter)
    (p : List Nat) : RespWriter × Nat :=
  if w.headerWritten then
    ({ w with out.writes := w.out.writes ++ [p] }, p.length)
  else
    if w.okMime = "" || w.okMime = "application/octet-stream" then
      let i := w.buf.length
      let buf := w.buf ++ p
      if buf.length < 1024 then ({ w with buf := buf }, p.length)
      else
        let okMime := matchMime w.okMime buf
        let cacheSets :=
          if w.name ≠ "" && okMime ≠ "" then w.out.cacheSets ++ [(w.name, okMime)]
          else w.out.cacheSets
        let ctypes := if okMime ≠ "" then w.out.ctypes ++ [okMime] else w.out.ctypes
        (⟨⟨w.out.writes ++ [buf], w.out.headerCalls ++ [200], ctypes, cacheSets⟩,
          w.name, okMime, true, []⟩, buf.length - i)
    else
      (⟨⟨w.out.writes ++ [p], w.out.headerCalls ++ [200], w.out.ctypes ++ [w.okMime],
         w.out.cacheSets⟩, w.name, w.okMime, true, w.buf⟩, p.length)

/-- `respWriter.Close` (main.go:416): a still-buffered short stream is
flushed verbatim, with no further header activity. -/
def respClose (w : RespWriter) : RespWriter :=
  if w.buf ≠ [] then { w with out.writes := w.out.writes ++ [w.buf] } else w

/-- Feed a sequence of `Write` payloads and `Close`, as the GET arm's
`io.Copy(rw, rc)` + `defer rw.Close()` does. -/
def runRespWriter (matchMime : String → List Nat → String) (w : RespWriter)
    (ps : List (List Nat)) : RespWriter :=
  respClose (ps.foldl (fun w p => (respWrite matchMime w p).1) w)

/-! ## The smart fetch engine (`smartFetch`, camutil part_000:262-381)

A composite object tree is modelled structurally: each node carries the
outcome of the external operations attempted for it (`none` = success).
A node whose raw fetch fails is `fetchFailBlob`; a blob that sniffs to an
unknown schema type is `unknownBlob`.  The filesystem is an association
list whose head shadows older entries (writes overwrite). -/

inductive FSEntry where
  | fileE (content : List Nat)
  | dirE
deriving DecidableEq, Repr

def FS : Type := List (List Char × FSEntry)

def fsSet (fs : FS) (p : List Char) (e : FSEntry) : FS := (p, e) :: fs

/-- `os.Stat`: succeeds iff the path exists. -/
def fsStat (fs : FS) (p : List Char) : Option FSEntry :=
  match fs with
  | [] => none
  | (q, e) :: rest => if q = p then some e else fsStat rest p

def fsEntrySize : FSEntry → Nat
  | .fileE c => c.length
  | .dirE => 0

inductive BlobTree where
  | rawBlob (body : List Nat) (createErr : Option String)
  | fileBlob (name : List Char) (content : List Nat) (frErr createErr copyErr : Option String)
  | dirBlob (name : List Char) (mkdirErr : Option String) (entriesOk : Bool) (entries : BlobTree)
  | setBlob (members : List BlobTree)
  | fetchFailBlob (msg : String)
  | unknownBlob (typ : String)
deriving Repr

/-- The file-writing tail of the `"file"` case (part_000:366-377):
`os.Create` then `io.Copy`; a failed copy leaves the created (empty) file
behind; `setFileMeta` failures are only logged. -/
def smartFetchWriteFile (fs : FS) (nm : List Char) (content : List Nat)
    (createErr copyErr : Option String) : FS × List (List Char × List Nat) × Option String :=
  match createErr with
  | some e => (fs, [], some ("file type: " ++ e))
  | none =>
    match copyErr with
    | some e => (fsSet fs nm (.fileE []), [], some ("Copying: " ++ e))
    | none => (fsSet fs nm (.fileE content), [(nm, content)], none)

mutual

/-- `smartFetch` (part_000:262).  Returns the filesystem, the log of fully
written files (in completion order) and the error result.

For a `static-set` the source spawns a 10-worker pool, submits the members
in order and collects the per-member results in submission order, returning
the first non-nil one; the member fetches themselves are order-independent
(each runs against its own knobs), so the sequential fold below assigns
every member the same error and the same file writes as the pool does.

In the `"file"` case the source reads
`if fi, err := os.Stat(name); err == nil && fi.Size() == fi.Size()` —
the stat result's size is compared to ITSELF, so the condition is merely
"the path exists"; and the `return nil` that skips the write sits INSIDE
the `if Verbose` block, so the skip only happens in verbose mode. -/
def smartFetch (verbose : Bool) (targ : List Char) (t : BlobTree) (fs : FS) :
    FS × List (List Char × List Nat) × Option String :=
  match t with
  | .fetchFailBlob msg => (fs, [], some ("Failed to fetch: " ++ msg))
  | .rawBlob body createErr =>
    match createErr with
    | some e => (fs, [], some ("raw data: " ++ e))
    | none => (fsSet fs targ (.fileE body), [(targ, body)], none)
  | .dirBlob name mkdirErr entriesOk entries =>
    let dir := pathJoin targ name
    match mkdirErr with
    | some e => (fs, [], some e)
    | none =>
      let fs1 := fsSet fs dir .dirE
      if entriesOk then smartFetch verbose dir entries fs1
      else (fs1, [], some "bad entries blobref in dir")
  | .setBlob members => smartFetchMembers verbose targ members fs
  | .fileBlob name content frErr createErr copyErr =>
    match frErr with
    | some e => (fs, [], some ("NewFileReader: " ++ e))
    | none =>
      let nm := pathJoin targ name
      let statHit : Bool := match fsStat fs nm with
                            | some fi => decide (fsEntrySize fi = fsEntrySize fi)
                            | none => false
      if statHit && verbose then (fs, [], none)
      else smartFetchWriteFile fs nm content createErr copyErr
  | .unknownBlob typ => (fs, [], some ("unknown blob type: " ++ typ))

/-- The member loop of the `static-set` case (part_000:313-344): every
member's work is performed; the first non-nil member error (in submission
order) is the error result. -/
def smartFetchMembers (verbose : Bool) (targ : List Char) (ms : List BlobTree)
    (fs : FS) : FS × List (List Char × List Nat) × Option String :=
  match ms with
  | [] => (fs, [], none)
  | m :: rest =>
    let r1 := smartFetch verbose targ m fs
    let r2 := smartFetchMembers verbose targ rest r1.1
    (r2.1, r1.2.1 ++ r2.2.1, match r1.2.2 with
                             | some e => some e
                             | none => r2.2.2)

end

mutual

/-- Every external operation in the tree resolves without error. -/
def treeOk : BlobTree → Bool
  | .rawBlob _ ce => ce.isNone
  | .fileBlob _ _ fr ce cp => fr.isNone && ce.isNone && cp.isNone
  | .dirBlob _ mk entriesOk entries => mk.isNone && entriesOk && treeOk entries
  | .setBlob ms => treeOkList ms
  | .fetchFailBlob _ => false
  | .unknownBlob _ => false

def treeOkList : List BlobTree → Bool
  | [] => true
  | m :: rest => treeOk m && treeOkList rest

end

mutual

/-- The errors of a tree in submission order (a failing directory hides the
errors of its descendants, as the source returns before recursing). -/
def treeErrs (targ : List Char) : BlobTree → List String
  | .rawBlob _ ce =>
    match ce with
    | some e => ["raw data: " ++ e]
    | none => []
  | .fileBlob _ _ fr ce cp =>
    match fr with
    | some e => ["NewFileReader: " ++ e]
    | none =>
      match ce with
      | some e => ["file type: " ++ e]
      | none =>
        match cp with
        | some e => ["Copying: " ++ e]
        | none => []
  | .dirBlob name mk entriesOk entries =>
    match mk with
    | some e => [e]
    | none =>
      if entriesOk then treeErrs (pathJoin targ name) entries
      else ["bad entries blobref in dir"]
  | .setBlob ms => treeErrsList targ ms
  | .fetchFailBlob msg => ["Failed to fetch: " ++ msg]
  | .unknownBlob typ => ["unknown blob type: " ++ typ]

def treeErrsList (targ : List Char) : List BlobTree → List String
  | [] => []
  | m :: rest => treeErrs targ m ++ treeErrsList targ rest

end

mutual

/-- The files a fully successful fetch writes, with their target paths, in
submission order. -/
def leafWrites (targ : List Char) : BlobTree → List (List Char × List Nat)
  | .rawBlob body _ => [(targ, body)]
  | .fileBlob name content _ _ _ => [(pathJoin targ name, content)]
  | .dirBlob name _ _ entries => leafWrites (pathJoin targ name) entries
  | .setBlob ms => leafWritesList targ ms
  | .fetchFailBlob _ => []
  | .unknownBlob _ => []

def leafWritesList (targ : List Char) : List BlobTree → List (List Char × List Nat)
  | [] => []
  | m :: rest => leafWrites targ m ++ leafWritesList targ rest

end

/-! ## The short (base64) reference encoding (`Base64ToRef`, part_000:144-181)

`base64.URLEncoding` is the URL-safe alphabet with `=` padding; `hex.Encode`
emits lowercase digits.  Bytes are `Nat`s below 256. -/

def b64Char (n : Nat) : Char :=
  if n < 26 then Char.ofNat (65 + n)
  else if n < 52 then Char.ofNat (97 + (n - 26))
  else if n < 62 then Char.ofNat (48 + (n - 52))
  else if n = 62 then '-' else '_'

def b64Val (c : Char) : Option Nat :=
  if 'A' ≤ c && c ≤ 'Z' then some (c.toNat - 65)
  else if 'a' ≤ c && c ≤ 'z' then some (c.toNat - 97 + 26)
  else if '0' ≤ c && c ≤ '9' then some (c.toNat - 48 + 52)
  else if c = '-' then some 62
  else if c = '_' then some 63
  else none

/-- `base64.URLEncoding.EncodeToString`: 3-byte groups become 4 characters;
a short final group is padded with `=`. -/
def base64urlEncode : List Nat → List Char
  | [] => []
  | [a] => [b64Char (a / 4), b64Char (a % 4 * 16), '=', '=']
  | [a, b] => [b64Char (a / 4), b64Char (a % 4 * 16 + b / 16), b64Char (b % 16 * 4), '=']
  | a :: b :: c :: rest =>
    b64Char (a / 4) :: b64Char (a % 4 * 16 + b / 16) ::
      b64Char (b % 16 * 4 + c / 64) :: b64Char (c % 64) :: base64urlEncode rest

/-- `base64.URLEncoding.Decode`: the input must be whole 4-character
quantums; `=` padding is legal only in the final quantum (an earlier `=`
falls into the unpadded branch, where `b64Val` rejects it, as Go does).
The encoder above zeroes all trailing bits, and every input the claims
quantify over comes from it, so no check of trailing bits is needed. -/
def base64urlDecode : List Char → Option (List Nat)
  | [] => some []
  | c1 :: c2 :: c3 :: c4 :: rest =>
    if rest.isEmpty then
      if c3 = '=' then
        if c4 = '=' then do
          let v1 ← b64Val c1
          let v2 ← b64Val c2
          some [v1 * 4 + v2 / 16]
        else none
      else if c4 = '=' then do
        let v1 ← b64Val c1
        let v2 ← b64Val c2
        let v3 ← b64Val c3
        some [v1 * 4 + v2 / 16, v2 % 16 * 16 + v3 / 4]
      else do
        let v1 ← b64Val c1
        let v2 ← b64Val c2
        let v3 ← b64Val c3
        let v4 ← b64Val c4
        some [v1 * 4 + v2 / 16, v2 % 16 * 16 + v3 / 4, v3 % 4 * 64 + v4]
    else do
      let v1 ← b64Val c1
      let v2 ← b64Val c2
      let v3 ← b64Val c3
      let v4 ← b64Val c4
      let bs ← base64urlDecode rest
      some ((v1 * 4 + v2 / 16) :: (v2 % 16 * 16 + v3 / 4) :: (v3 % 4 * 64 + v4) :: bs)
  | _ => none

def hexDigitChar (n : Nat) : Char :=
  if n < 10 then Char.ofNat (48 + n) else Char.ofNat (87 + n)

/-- `hex.Encode` (lowercase). -/
def hexEncode : List Nat → List Char
  | [] => []
  | b :: bs => hexDigitChar (b / 16) :: hexDigitChar (b % 16) :: hexEncode bs

def hexVal (c : Char) : Option Nat :=
  if '0' ≤ c && c ≤ '9' then some (c.toNat - 48)
  else if 'a' ≤ c && c ≤ 'f' then some (c.toNat - 87)
  else none

def hexDecode : List Char → Option (List Nat)
  | [] => some []
  | [_] => none
  | c1 :: c2 :: rest => do
    let h ← hexVal c1
    let l ← hexVal c2
    let bs ← hexDecode rest
    some ((h * 16 + l) :: bs)

/-- `bytes.ToLower` on ASCII. -/
def goToLowerCh (c : Char) : Char :=
  if 'A' ≤ c && c ≤ 'Z' then Char.ofNat (c.toNat + 32) else c

def goToLower (s : List Char) : List Char := s.map goToLowerCh

/-- Modelled from the spec: `toShort(ref)` of the Reference Codec (§4.1) —
the repository's `camutil.RefToBase64` is not among the source files
provided; per the spec it "base64-encodes the raw digest bytes of a
canonical ref", keeping the algorithm tag, which is what `Base64ToRef`
expects to undo.  For a valid ref the digest is valid hex, so the `getD`
default never fires. -/
def RefToBase64 (br : BlobRef) : List Char :=
  br.algo ++ '-' :: base64urlEncode ((hexDecode br.digest).getD [])

/-- `Base64ToRef` (part_000:144).  The source copies `arg` into a buffer of
capacity 128 (`t`, twice the 64-byte digest buffer `b`), truncating a longer
`arg`; finds the first `-`; base64-decodes what follows into `b`; lowercases
the algorithm tag in place; hex-encodes the decoded bytes back over the
buffer; and parses the rebuilt canonical text.  A decode longer than the
64-byte `b` would overrun it in the source (no valid input reaches that);
here it is an error. -/
def Base64ToRef (arg : List Char) : Except String BlobRef :=
  let t := arg.take 128
  match indexOfDash t with
  | none => .error "no dash in arg"
  | some i =>
    match base64urlDecode (t.drop (i + 1)) with
    | none => .error "cannot decode as base64"
    | some bs =>
      if 64 < bs.length then .error "decoded digest too long"
      else
        match blobParse (goToLower (t.take i) ++ '-' :: hexEncode bs) with
        | none => .error "cannot parse as blobref"
        | some br => .ok br

/-! ## The static-set worker pool (part_000:313-344) as a transition system

The source creates a buffered work channel holding all members, 10 worker
goroutines, and one buffered result channel (capacity 1) per member; it then
receives the per-member results in submission order and returns at the first
non-nil one.  States record the not-yet-picked-up members (`pending`, in
submission order), the 10 workers (`some t` = busy fetching member `t`),
the result buffers (`results[t] = some r` once member `t`'s fetch finished
with result `r`), the receive loop's position (`collected`) and the call's
return value (`retval = some r` once the call has returned `r`).

`take`/`finish` carry no condition on `retval`: workers drain the work
channel even after the call has returned — nothing cancels them. -/

structure PoolState where
  pending : List Nat
  workers : List (Option Nat)
  results : List (Option (Option String))
  collected : Nat
  retval : Option (Option String)
deriving Repr, DecidableEq

/-- The state after submission: all `n` members queued in order, 10 idle
workers, all result buffers empty (for `n = 0` the receive loop returns nil
at once). -/
def poolInit (n : Nat) : PoolState :=
  ⟨List.range n, List.replicate 10 none, List.replicate n none, 0,
   if n = 0 then some none else none⟩

/-- `memberErr t` is the result of the recursive `smartFetch` for member
`t` — each member's fetch runs against its own subtree, independently of
its siblings. -/
inductive PoolStep (memberErr : Nat → Option String) (n : Nat) :
    PoolState → PoolState → Prop
  | take (t : Nat) (pend : List Nat) (wl wr : List (Option Nat))
      (results : List (Option (Option String))) (collected : Nat)
      (retval : Option (Option String)) :
      PoolStep memberErr n ⟨t :: pend, wl ++ none :: wr, results, collected, retval⟩
        ⟨pend, wl ++ some t :: wr, results, collected, retval⟩
  | finish (t : Nat) (pend : List Nat) (wl wr : List (Option Nat))
      (results : List (Option (Option String))) (collected : Nat)
      (retval : Option (Option String)) :
      PoolStep memberErr n ⟨pend, wl ++ some t :: wr, results, collected, retval⟩
        ⟨pend, wl ++ none :: wr, results.set t (some (memberErr t)), collected, retval⟩
  | collectOk (pend : List Nat) (workers : List (Option Nat))
      (results : List (Option (Option String))) (collected : Nat) :
      results[collected]? = some (some none) →
      PoolStep memberErr n ⟨pend, workers, results, collected, none⟩
        ⟨pend, workers, results, collected + 1,
         if collected + 1 = n then some none else none⟩
  | collectErr (pend : List Nat) (workers : List (Option Nat))
      (results : List (Option (Option String))) (collected : Nat) (e : String) :
      results[collected]? = some (some (some e)) →
      PoolStep memberErr n ⟨pend, workers, results, collected, none⟩
        ⟨pend, workers, results, collected, some (some e)⟩

/-- The states one static-set expansion with members `0, …, n-1` can reach. -/
def poolReaches (memberErr : Nat → Option String) (n : Nat) (s : PoolState) : Prop :=
  Relation.ReflTransGen (PoolStep memberErr n) (poolInit n) s

/-- The number of member fetches running at once. -/
def poolActive (s : PoolState) : Nat := (s.workers.filterMap id).length

/-! ## Invariants and concrete instances used by the theorems -/

/-- Invariant of the streaming download pipeline: header bookkeeping, and
the buffer is only populated while in pre-header sniffing mode. -/
def RWInv (w : RespWriter) : Prop :=
  (w.headerWritten = false → w.out.headerCalls = [])
  ∧ (w.headerWritten = true → w.out.headerCalls.length = 1)
  ∧ ((w.headerWritten = true ∨ ¬(w.okMime = "" ∨ w.okMime = "application/octet-stream"))
      → w.buf = [])

/-- Inductive invariant of the worker pool: result buffers cover the `n`
members; there are always exactly 10 workers; a member sits in at most one
place (queue or a worker) and exactly the undelivered members sit somewhere;
the receive loop has consumed only nil results, and has consumed all `n` of
them if the call returned nil. -/
def PoolInv (n : Nat) (s : PoolState) : Prop :=
  s.results.length = n
  ∧ s.workers.length = 10
  ∧ (s.pending ++ s.workers.filterMap id).Nodup
  ∧ (∀ k ∈ s.pending ++ s.workers.filterMap id, k < n ∧ s.results[k]? = some none)
  ∧ (∀ k, k < n → s.results[k]? = some none → k ∈ s.pending ++ s.workers.filterMap id)
  ∧ s.collected ≤ n
  ∧ (∀ k, k < s.collected → s.results[k]? = some (some none))
  ∧ (s.retval = some none → s.collected = n)

/-- Member results for a two-member set whose first member fails. -/
def memberErrBoom : Nat → Option String := fun k => if k = 0 then some "boom" else none

/-- A state of the two-member pool in which the call has already returned
the first member's error while member 1 is still queued and undelivered. -/
def poolCounterState : PoolState :=
  ⟨[1], List.replicate 10 none, [some (some "boom"), none], 0, some (some "boom")⟩

/-- A small composite tree: a static set holding a file and a directory
that holds a set with one file. -/
def demoTree : BlobTree :=
  .setBlob [.fileBlob "a".data [1] none none none,
            .dirBlob "d".data none true (.setBlob [.fileBlob "b".data [2] none none none])]

/-- An inline-mtime multipart part: empty file name, form field `mtime`,
carrying the 23-character time value the spec describes. -/
def mtimeDemoPart : MPart :=
  ⟨[], "mtime".data, "", [], "2006-01-02 15:04:05.999".data, none, none⟩

/-- An ordinary file part following it. -/
def fileDemoPart : MPart :=
  ⟨"a.txt".data, "file".data, "text/plain", [], "hello".data, none, none⟩

/-! ## Theorems -/

/-- `timeParse` reports failure even when a layout matched: its `ok` local
is never assigned. -/
theorem timeParse_ok_always_false (text : List Char) : (timeParse text).2 = false := by
  unfold timeParse
  cases rfc1123Parse text <;> cases unixDateParse text <;> cases rfc3339Parse text <;> rfl

/-- C1: the claim fails on the code.  For the upload request of the claim —
`Last-Modified: Mon, 02 Jan 2006 15:04:05 MST` (which parses under RFC1123)
and query `mtime=1136214245` — the resolved modification time is
`time.Unix(1136214245, 0)`, i.e. the Unix-timestamp source wins, because
`timeParse` never sets its `ok` result and the header's early return never
fires.  The header's value is parsed successfully and then discarded. -/
theorem parseLastModified_header_loses :
    parseLastModified "Mon, 02 Jan 2006 15:04:05 MST".data "1136214245".data
        = GoTime.unixSec 1136214245
    ∧ rfc1123Parse "Mon, 02 Jan 2006 15:04:05 MST".data
        = some (GoTime.civil 2006 1 2 15 4 5 "MST" 0)
    ∧ GoTime.unixSec 1136214245 ≠ GoTime.civil 2006 1 2 15 4 5 "MST" 0 :=
  ⟨by decide, by decide, by decide⟩

/-- C5 counterexample: a POST that parses cleanly but materializes zero
files is answered with status 400, not the claimed 500. -/
theorem handlePost_no_files_counterexample :
    (handlePost false none [] none).1 = 400 ∧ (handlePost false none [] none).1 ≠ 500 := by
  decide

/-- C5 (amended): a POST whose parsing materializes zero files fails with
the `no files in request` error surfaced as HTTP status 400. -/
theorem handlePost_no_files_400 (uploadErr : Option String) :
    handlePost false none [] uploadErr = (400, "no files in request") := rfl

/-- C6: the claim fails on the code, which contradicts its own
`"Skipping %s; already exists."` log message.  With `Verbose` false (the
default) the `"file"` case overwrites even though a file of the same size
(3 bytes) already exists at the target path — the `return nil` that would
skip sits inside `if Verbose`; and with `Verbose` true it skips even though
the existing file's size (1 byte) differs from the content's, because the
source compares `fi.Size()` to itself instead of to the fetched size. -/
theorem smartFetch_skip_is_broken :
    ((smartFetch false "/dst".data
        (.fileBlob "a.txt".data [65, 66, 67] none none none)
        [(pathJoin "/dst".data "a.txt".data, .fileE [1, 2, 3])]).2.1
      = [(pathJoin "/dst".data "a.txt".data, [65, 66, 67])])
    ∧ ((smartFetch true "/dst".data
        (.fileBlob "a.txt".data [65, 66, 67] none none none)
        [(pathJoin "/dst".data "a.txt".data, .fileE [1])]).2.1
      = []) := by
  constructor
  · decide
  · decide

/-- C7: the claim fails on the code.  The inline-mtime buffer is created as
`bytes.NewBuffer(make([]byte, 23))`, whose INITIAL CONTENTS are 23 zero
bytes; `io.CopyN` appends the 23 body bytes after them, so the fallback
modification-time source becomes a 46-byte string starting with 23 NULs —
not the 23-character value that was read — and consequently never parses:
the subsequent file part gets no mtime applied. -/
theorem saveMultipartTo_mtime_nul_padded :
    ((saveMultipartTo "/tmp/up".data [mtimeDemoPart, fileDemoPart] "multipart: malformed" []).qmtimeOut
      = List.replicate 23 (Char.ofNat 0) ++ "2006-01-02 15:04:05.999".data)
    ∧ ((saveMultipartTo "/tmp/up".data [mtimeDemoPart, fileDemoPart] "multipart: malformed" []).qmtimeOut
      ≠ "2006-01-02 15:04:05.999".data)
    ∧ ((saveMultipartTo "/tmp/up".data [mtimeDemoPart, fileDemoPart] "multipart: malformed" []).chtimes
      = []) := by
  refine ⟨by decide, by decide, by decide⟩

/-- C10: a failure of `mr.NextPart()` after some file parts were stored is
swallowed: the `for part, err := …` clause shadows the named `err` return,
so `saveMultipartTo` returns the files materialized so far and a nil error
whatever error (EOF or a mid-stream parse failure) ended the part loop. -/
theorem saveMultipartTo_swallows_midstream_error :
    ∀ (destDir : List Char) (parts : List MPart) (terminalErr : String) (qmtime : List Char),
    (∀ p ∈ parts, p.createErr = none ∧ p.copyErr = none) →
    (saveMultipartTo destDir parts terminalErr qmtime).err = none
    ∧ (saveMultipartTo destDir parts terminalErr qmtime).filenames
      = parts.filterMap (fun p =>
          if p.filename = [] then none
          else some (pathJoin destDir (filepathBase p.filename))) := by
  intro destDir parts terminalErr qmtime
  unfold saveMultipartTo
  induction parts generalizing qmtime with
  | nil => intro _; simp [saveMultipartLoop]
  | cons p rest ih =>
    intro h
    have hp := h p (by simp)
    have hrest : ∀ q ∈ rest, q.createErr = none ∧ q.copyErr = none :=
      fun q hq => h q (by simp [hq])
    by_cases hf : p.filename = []
    · by_cases hm : p.formName = "mtime".data
      · simpa [saveMultipartLoop, hf, hm] using
          ih (List.replicate 23 (Char.ofNat 0) ++ p.content.take 23) hrest
      · simpa [saveMultipartLoop, hf, hm] using ih qmtime hrest
    · have := ih qmtime hrest
      simp [saveMultipartLoop, hf, hp.1, hp.2]
      exact this

/-- Concrete instance of `saveMultipartTo_swallows_midstream_error`: one
stored file part followed by a malformed part boundary still yields the
file and a nil error. -/
theorem saveMultipartTo_swallows_midstream_error_witness :
    (saveMultipartTo "/tmp/up".data [fileDemoPart] "multipart: unexpected line in body" []).err = none
    ∧ (saveMultipartTo "/tmp/up".data [fileDemoPart] "multipart: unexpected line in body" []).filenames
      = [fileDemoPart].filterMap (fun p =>
          if p.filename = [] then none
          else some (pathJoin "/tmp/up".data (filepathBase p.filename))) :=
  saveMultipartTo_swallows_midstream_error _ _ _ _ (by decide)

theorem indexOfDash_append (a b : List Char) (h : '-' ∉ a) :
    indexOfDash (a ++ '-' :: b) = some a.length := by
  induction a with
  | nil => simp [indexOfDash]
  | cons c cs ih =>
    have hc : ¬(c = '-') := fun e => h (by simp [e])
    have hcs : '-' ∉ cs := fun m => h (by simp [m])
    simp [indexOfDash, hc, ih hcs]

/-- A valid reference (under the known-algorithm table) is a sha1 ref with
a 40-character lowercase hex digest. -/
theorem valid_sha1 (br : BlobRef) (h : br.valid = true) :
    br.algo = "sha1".data ∧ br.digest.length = 40 ∧ ∀ c ∈ br.digest, isHexLowerCh c = true := by
  unfold BlobRef.valid algoHexLen at h
  by_cases ha : br.algo = "sha1".data
  · simp [ha] at h
    exact ⟨ha, h.1, h.2⟩
  · simp [ha] at h

/-- C9: for a nonempty backup root and a valid content reference, the
paranoid destination is the root joined with the first three digest
characters, then the next three, then the full canonical text plus
`".dat"`. -/
theorem getParanoidPath_shards (root : List Char) (br : BlobRef)
    (hroot : root ≠ []) (hval : br.valid = true) (_hlen : 6 ≤ br.digest.length) :
    getParanoidPath root br
      = pathJoin (pathJoin (pathJoin root (br.digest.take 3)) ((br.digest.drop 3).take 3))
          (refText br ++ ".dat".data) := by
  obtain ⟨ha, h40, hhex⟩ := valid_sha1 br hval
  have hdash : indexOfDash (refText br) = some 4 := by
    unfold refText
    rw [ha]
    exact indexOfDash_append "sha1".data br.digest (by decide)
  have hdrop : (refText br).drop 5 = br.digest := by
    unfold refText
    rw [ha, show "sha1".data = ['s', 'h', 'a', '1'] from rfl]
    rfl
  unfold getParanoidPath
  rw [if_neg (by simp [hroot, hval])]
  simp only [hdash]
  simp only [show (4 : Nat) + 1 = 5 from rfl, hdrop]

/-- Concrete instance of `getParanoidPath_shards`: the spec's example
`sha1-0123…` under root `/backup`. -/
theorem getParanoidPath_shards_witness :
    getParanoidPath "/backup".data
        ⟨"sha1".data, "0123456789abcdef0123456789abcdef01234567".data⟩
      = "/backup/012/345/sha1-0123456789abcdef0123456789abcdef01234567.dat".data :=
  (getParanoidPath_shards _ _ (by decide) (by decide) (by decide)).trans (by decide)

/-- One `respWriter.Write` call preserves the pipeline invariant, keeps
"bytes seen = bytes flushed + bytes buffered", and grows the buffer by at
most the payload — provided the stream stays below the 1024-byte sniff
threshold. -/
theorem respWrite_step (mm : String → List Nat → String) (w : RespWriter) (p : List Nat)
    (hI : RWInv w) (hlen : w.buf.length + p.length < 1024) :
    RWInv (respWrite mm w p).1
    ∧ (respWrite mm w p).1.out.writes.flatten ++ (respWrite mm w p).1.buf
        = w.out.writes.flatten ++ (w.buf ++ p)
    ∧ (respWrite mm w p).1.buf.length ≤ w.buf.length + p.length := by
  obtain ⟨h1, h2, h3⟩ := hI
  by_cases hw : w.headerWritten
  · have hbuf : w.buf = [] := h3 (Or.inl hw)
    have hres : (respWrite mm w p).1
        = ⟨⟨w.out.writes ++ [p], w.out.headerCalls, w.out.ctypes, w.out.cacheSets⟩,
           w.name, w.okMime, true, w.buf⟩ := by
      simp [respWrite, hw]
    rw [hres]
    refine ⟨⟨fun hh => by simp at hh, fun _ => h2 hw, fun _ => hbuf⟩, ?_, ?_⟩
    · simp [hbuf]
    · simp [hbuf]
  · have hwf : w.headerWritten = false := by simpa using hw
    by_cases hm : w.okMime = "" ∨ w.okMime = "application/octet-stream"
    · have hcond : (w.okMime = "" || w.okMime = "application/octet-stream") = true := by
        rcases hm with h | h <;> simp [h]
      have hres : (respWrite mm w p).1 = ⟨w.out, w.name, w.okMime, false, w.buf ++ p⟩ := by
        simp [respWrite, hwf, hcond, hlen]
      rw [hres]
      refine ⟨⟨fun _ => h1 hwf, fun hh => by simp at hh, fun hor => ?_⟩, ?_, ?_⟩
      · rcases hor with hh | hnm
        · exact absurd hh (by simp)
        · exact absurd hm hnm
      · simp
      · simp
    · have hcond : (w.okMime = "" || w.okMime = "application/octet-stream") = false := by
        push_neg at hm
        simp [hm.1, hm.2]
      have hbuf : w.buf = [] := h3 (Or.inr hm)
      have hres : (respWrite mm w p).1
          = ⟨⟨w.out.writes ++ [p], w.out.headerCalls ++ [200], w.out.ctypes ++ [w.okMime],
              w.out.cacheSets⟩, w.name, w.okMime, true, w.buf⟩ := by
        simp [respWrite, hwf, hcond]
      rw [hres]
      refine ⟨⟨fun hh => by simp at hh, fun _ => ?_, fun _ => hbuf⟩, ?_, ?_⟩
      · simp [h1 hwf]
      · simp [hbuf]
      · simp [hbuf]

/-- Folding a below-threshold write sequence through the pipeline. -/
theorem respWrite_fold (mm : String → List Nat → String) :
    ∀ (ps : List (List Nat)) (w : RespWriter),
    RWInv w → w.buf.length + (ps.map List.length).sum < 1024 →
    RWInv (ps.foldl (fun w p => (respWrite mm w p).1) w)
    ∧ (ps.foldl (fun w p => (respWrite mm w p).1) w).out.writes.flatten
        ++ (ps.foldl (fun w p => (respWrite mm w p).1) w).buf
      = w.out.writes.flatten ++ w.buf ++ ps.flatten
    ∧ (ps.foldl (fun w p => (respWrite mm w p).1) w).buf.length
      ≤ w.buf.length + (ps.map List.length).sum := by
  intro ps
  induction ps with
  | nil =>
    intro w hI _
    exact ⟨hI, by simp, by simp⟩
  | cons p rest ih =>
    intro w hI hlen
    simp only [List.foldl_cons, List.map_cons, List.sum_cons, List.flatten_cons] at *
    obtain ⟨hI1, hflat1, hlen1⟩ := respWrite_step mm w p hI (by omega)
    obtain ⟨hI2, hflat2, hlen2⟩ := ih ((respWrite mm w p).1) hI1 (by omega)
    refine ⟨hI2, ?_, by omega⟩
    rw [hflat2, hflat1]
    simp [List.append_assoc]

/-- `Close` flushes exactly the buffered bytes and never touches headers. -/
theorem respClose_out (w : RespWriter) :
    (respClose w).out.writes.flatten = w.out.writes.flatten ++ w.buf
    ∧ (respClose w).out.headerCalls = w.out.headerCalls := by
  by_cases hb : w.buf = [] <;> simp [respClose, hb]

/-- C4: for every write sequence totalling fewer than 1024 bytes (the sniff
threshold), the pipeline delivers to the underlying response writer exactly
the original bytes in order and makes at most one `WriteHeader` call —
whatever the cache, the sniffer, the blob name and the initial mime type. -/
theorem respWriter_short_stream (cacheGet : String → String)
    (mm : String → List Nat → String) (name okMime : String)
    (ps : List (List Nat)) (h : (ps.map List.length).sum < 1024) :
    (runRespWriter mm (newRespWriter cacheGet name okMime) ps).out.writes.flatten
      = ps.flatten
    ∧ (runRespWriter mm (newRespWriter cacheGet name okMime) ps).out.headerCalls.length ≤ 1 := by
  have hbuf0 : (newRespWriter cacheGet name okMime).buf = [] := rfl
  have hout0 : (newRespWriter cacheGet name okMime).out = ⟨[], [], [], []⟩ := rfl
  have hhw0 : (newRespWriter cacheGet name okMime).headerWritten = false := rfl
  have hI0 : RWInv (newRespWriter cacheGet name okMime) := by
    refine ⟨fun _ => ?_, fun hh => ?_, fun _ => hbuf0⟩
    · rw [hout0]
    · rw [hhw0] at hh
      exact absurd hh (by simp)
  unfold runRespWriter
  obtain ⟨hIf, hflat, _⟩ :=
    respWrite_fold mm ps (newRespWriter cacheGet name okMime) hI0
      (by rw [hbuf0]; simpa using h)
  obtain ⟨hc1, hc2⟩ := respClose_out (ps.foldl (fun w p => (respWrite mm w p).1)
    (newRespWriter cacheGet name okMime))
  constructor
  · rw [hc1, hflat, hout0, hbuf0]
    simp
  · rw [hc2]
    obtain ⟨hf1, hf2, _⟩ := hIf
    by_cases hfw : (ps.foldl (fun w p => (respWrite mm w p).1)
        (newRespWriter cacheGet name okMime)).headerWritten
    · rw [hf2 hfw]
    · rw [hf1 (by simpa using hfw)]
      simp

/-- Concrete instance of `respWriter_short_stream`: a 3-byte stream with no
known mime type is flushed verbatim with no header call beyond the allowed
one. -/
theorem respWriter_short_stream_witness :
    (runRespWriter (fun _ _ => "") (newRespWriter (fun _ => "") "" "") [[1, 2, 3]]).out.writes.flatten
      = [[1, 2, 3]].flatten
    ∧ (runRespWriter (fun _ _ => "") (newRespWriter (fun _ => "") "" "") [[1, 2, 3]]).out.headerCalls.length ≤ 1 :=
  respWriter_short_stream _ _ _ _ _ (by decide)

/-- Structural induction over blob trees with a membership hypothesis for
static-set members. -/
theorem BlobTree.recMem {motive : BlobTree → Prop}
    (raw : ∀ body ce, motive (.rawBlob body ce))
    (file : ∀ nm c fr ce cp, motive (.fileBlob nm c fr ce cp))
    (dir : ∀ nm mk eo e, motive e → motive (.dirBlob nm mk eo e))
    (set : ∀ ms, (∀ m ∈ ms, motive m) → motive (.setBlob ms))
    (ffail : ∀ msg, motive (.fetchFailBlob msg))
    (unk : ∀ ty, motive (.unknownBlob ty)) : ∀ t, motive t
  | .rawBlob b ce => raw b ce
  | .fileBlob nm c fr ce cp => file nm c fr ce cp
  | .dirBlob nm mk eo e =>
    dir nm mk eo e (BlobTree.recMem raw file dir set ffail unk e)
  | .setBlob ms =>
    set ms (fun m _hm => BlobTree.recMem raw file dir set ffail unk m)
  | .fetchFailBlob msg => ffail msg
  | .unknownBlob ty => unk ty
termination_by t => sizeOf t
decreasing_by
  all_goals simp_wf
  all_goals (have hsz := List.sizeOf_lt_of_mem _hm; omega)

/-- The member loop: the first non-nil member error in submission order is
returned, and when every member is clean the writes are the concatenation
of the members' leaf writes. -/
theorem smartFetchMembers_spec :
    ∀ (ms : List BlobTree) (targ : List Char) (fs : FS),
    (∀ m ∈ ms, ∀ (targ2 : List Char) (fs2 : FS),
        (smartFetch false targ2 m fs2).2.2 = (treeErrs targ2 m).head?
        ∧ (treeOk m = true → (smartFetch false targ2 m fs2).2.1 = leafWrites targ2 m)) →
    (smartFetchMembers false targ ms fs).2.2 = (treeErrsList targ ms).head?
    ∧ (treeOkList ms = true
        → (smartFetchMembers false targ ms fs).2.1 = leafWritesList targ ms) := by
  intro ms
  induction ms with
  | nil =>
    intro targ fs _
    simp [smartFetchMembers, treeErrsList, treeOkList, leafWritesList]
  | cons m rest ih =>
    intro targ fs h
    have hm := h m (by simp)
    have ihr := ih targ ((smartFetch false targ m fs).1) (fun q hq => h q (by simp [hq]))
    constructor
    · show (match (smartFetch false targ m fs).2.2 with
            | some e => some e
            | none => (smartFetchMembers false targ rest (smartFetch false targ m fs).1).2.2)
          = (treeErrs targ m ++ treeErrsList targ rest).head?
      rw [(hm targ fs).1, ihr.1]
      cases treeErrs targ m <;> simp
    · intro hok
      have hok1 : treeOk m = true := by
        simp [treeOkList] at hok
        exact hok.1
      have hok2 : treeOkList rest = true := by
        simp [treeOkList] at hok
        exact hok.2
      show (smartFetch false targ m fs).2.1
            ++ (smartFetchMembers false targ rest (smartFetch false targ m fs).1).2.1
          = leafWrites targ m ++ leafWritesList targ rest
      rw [(hm targ fs).2 hok1, ihr.2 hok2]

/-- The error list of a member list is empty iff every member is clean. -/
theorem treeErrsList_nil_iff :
    ∀ (ms : List BlobTree) (targ : List Char),
    (∀ m ∈ ms, ∀ targ2, (treeErrs targ2 m = [] ↔ treeOk m = true)) →
    (treeErrsList targ ms = [] ↔ treeOkList ms = true) := by
  intro ms
  induction ms with
  | nil => intro targ _; simp [treeErrsList, treeOkList]
  | cons m rest ih =>
    intro targ h
    have hm := h m (by simp) targ
    have ihr := ih targ (fun q hq => h q (by simp [hq]))
    simp [treeErrsList, treeOkList, hm, ihr]

/-- The error list of a tree is empty iff every operation in it is clean. -/
theorem treeErrs_nil_iff :
    ∀ (t : BlobTree) (targ : List Char), treeErrs targ t = [] ↔ treeOk t = true := by
  intro t
  induction t using BlobTree.recMem with
  | raw body ce => intro targ; cases ce <;> simp [treeErrs, treeOk]
  | file nm c fr ce cp =>
    intro targ
    cases fr <;> cases ce <;> cases cp <;> simp [treeErrs, treeOk]
  | dir nm mk eo e ih =>
    intro targ
    cases mk <;> cases eo <;> simp [treeErrs, treeOk, ih]
  | set ms ih => intro targ; exact treeErrsList_nil_iff ms targ ih
  | ffail msg => intro targ; simp [treeErrs, treeOk]
  | unk ty => intro targ; simp [treeErrs, treeOk]

/-- The fetch result of a tree: the error is the first error in submission
order, and a clean tree writes exactly its leaf files. -/
theorem smartFetch_err_log :
    ∀ (t : BlobTree) (targ : List Char) (fs : FS),
    (smartFetch false targ t fs).2.2 = (treeErrs targ t).head?
    ∧ (treeOk t = true → (smartFetch false targ t fs).2.1 = leafWrites targ t) := by
  intro t
  induction t using BlobTree.recMem with
  | raw body ce =>
    intro targ fs
    cases ce <;> simp [smartFetch, treeErrs, treeOk, leafWrites]
  | file nm c fr ce cp =>
    intro targ fs
    cases fr <;> cases ce <;> cases cp <;>
      simp [smartFetch, smartFetchWriteFile, treeErrs, treeOk, leafWrites]
  | dir nm mk eo e ih =>
    intro targ fs
    cases mk with
    | some e2 => simp [smartFetch, treeErrs, treeOk, leafWrites]
    | none =>
      cases eo with
      | false => simp [smartFetch, treeErrs, treeOk, leafWrites]
      | true =>
        have h := ih (pathJoin targ nm) (fsSet fs (pathJoin targ nm) FSEntry.dirE)
        constructor
        · simpa [smartFetch, treeErrs] using h.1
        · intro hok
          have hoke : treeOk e = true := by simpa [treeOk] using hok
          simpa [smartFetch, leafWrites] using h.2 hoke
  | set ms ih =>
    intro targ fs
    have h := smartFetchMembers_spec ms targ fs ih
    simpa [smartFetch, treeErrs, treeOk, leafWrites] using h
  | ffail msg =>
    intro targ fs
    simp [smartFetch, treeErrs, treeOk, leafWrites]
  | unk ty =>
    intro targ fs
    simp [smartFetch, treeErrs, treeOk, leafWrites]

/-- C2: for every composite object tree (with the default non-verbose
configuration), the engine returns nil iff every leaf and every
intermediate directory/static-set resolved without error; a clean tree has
every leaf file written to the filesystem (the write log is exactly the
tree's leaf files with their contents); and the returned error is the first
non-nil error in member submission order. -/
theorem smartFetch_tree_correct (t : BlobTree) (targ : List Char) (fs : FS) :
    ((smartFetch false targ t fs).2.2 = none ↔ treeOk t = true)
    ∧ (treeOk t = true → (smartFetch false targ t fs).2.1 = leafWrites targ t)
    ∧ (smartFetch false targ t fs).2.2 = (treeErrs targ t).head? := by
  obtain ⟨he, hl⟩ := smartFetch_err_log t targ fs
  refine ⟨?_, hl, he⟩
  rw [he, List.head?_eq_none_iff]
  exact treeErrs_nil_iff t targ

/-- Concrete instance of `smartFetch_tree_correct` on a two-level tree. -/
theorem smartFetch_tree_correct_witness :
    treeOk demoTree = true
    ∧ ((smartFetch false "/x".data demoTree ([] : FS)).2.2 = none ↔ treeOk demoTree = true)
    ∧ (smartFetch false "/x".data demoTree ([] : FS)).2.1 = leafWrites "/x".data demoTree :=
  ⟨by decide, (smartFetch_tree_correct demoTree "/x".data ([] : FS)).1,
   (smartFetch_tree_correct demoTree "/x".data ([] : FS)).2.1 (by decide)⟩

theorem filterMap_id_cons_some (t : Nat) (l : List (Option Nat)) :
    (some t :: l).filterMap id = t :: l.filterMap id := rfl

theorem filterMap_id_cons_none (l : List (Option Nat)) :
    ((none : Option Nat) :: l).filterMap id = l.filterMap id := rfl

/-- Moving a member between the queue-or-workers locations is a
permutation: the locations with `t` on a worker are a permutation of `t`
consed onto the locations with that worker idle. -/
theorem pool_locs_perm (pend : List Nat) (wl wr : List (Option Nat)) (t : Nat) :
    (pend ++ ((wl ++ some t :: wr).filterMap id)).Perm
      (t :: (pend ++ ((wl ++ none :: wr).filterMap id))) := by
  simp only [List.filterMap_append, filterMap_id_cons_some, filterMap_id_cons_none]
  have h1 : pend ++ (wl.filterMap id ++ t :: wr.filterMap id)
      = (pend ++ wl.filterMap id) ++ t :: wr.filterMap id := by
    simp [List.append_assoc]
  have h2 : t :: (pend ++ (wl.filterMap id ++ wr.filterMap id))
      = t :: ((pend ++ wl.filterMap id) ++ wr.filterMap id) := by
    simp [List.append_assoc]
  rw [h1, h2]
  exact List.perm_middle

/-- The pool invariant holds in the post-submission initial state. -/
theorem poolInit_inv (n : Nat) : PoolInv n (poolInit n) := by
  have hfm : List.filterMap id (List.replicate 10 (none : Option Nat)) = [] := rfl
  unfold PoolInv poolInit
  dsimp only
  rw [hfm]
  refine ⟨by simp, by simp, ?_, ?_, ?_, by omega, ?_, ?_⟩
  · simpa using List.nodup_range n
  · intro k hk
    simp only [List.append_nil, List.mem_range] at hk
    exact ⟨hk, List.getElem?_replicate_of_lt hk⟩
  · intro k hk _
    simpa using hk
  · intro k hk
    omega
  · intro h
    by_cases hn : n = 0
    · simp [hn]
    · rw [if_neg hn] at h
      exact absurd h (by simp)

/-- Every pool transition preserves the invariant. -/
theorem poolStep_inv (me : Nat → Option String) (n : Nat) (s1 s2 : PoolState)
    (hstep : PoolStep me n s1 s2) (hI : PoolInv n s1) : PoolInv n s2 := by
  obtain ⟨hrl, hwl, hnd, hloc, hcov, hcol, hcle, hret⟩ := hI
  cases hstep with
  | take t pend wl wr results collected retval =>
    have hperm := pool_locs_perm pend wl wr t
    have hold : (t :: pend) ++ ((wl ++ none :: wr).filterMap id)
        = t :: (pend ++ ((wl ++ none :: wr).filterMap id)) := rfl
    rw [hold] at hnd hloc hcov
    refine ⟨hrl, by simpa using hwl, ?_, ?_, ?_, hcol, hcle, hret⟩
    · exact hperm.nodup_iff.mpr hnd
    · intro k hk
      exact hloc k (hperm.mem_iff.mp hk)
    · intro k hk hres
      exact hperm.mem_iff.mpr (hcov k hk hres)
  | finish t pend wl wr results collected retval =>
    have hperm := pool_locs_perm pend wl wr t
    have htmem : t ∈ pend ++ ((wl ++ some t :: wr).filterMap id) := by
      simp [List.filterMap_append, filterMap_id_cons_some]
    obtain ⟨htn, htres⟩ := hloc t htmem
    have htlen : t < results.length := hrl ▸ htn
    have hnd2 : (t :: (pend ++ ((wl ++ none :: wr).filterMap id))).Nodup :=
      hperm.nodup_iff.mp hnd
    have htnotin : t ∉ pend ++ ((wl ++ none :: wr).filterMap id) :=
      (List.nodup_cons.mp hnd2).1
    refine ⟨by simpa using hrl, by simpa using hwl, (List.nodup_cons.mp hnd2).2,
      ?_, ?_, hcol, ?_, hret⟩
    · intro k hk
      have hkne : k ≠ t := fun he => htnotin (he ▸ hk)
      have hkold : k ∈ pend ++ ((wl ++ some t :: wr).filterMap id) :=
        hperm.mem_iff.mpr (List.mem_cons_of_mem _ hk)
      obtain ⟨hkn, hkres⟩ := hloc k hkold
      exact ⟨hkn, by rw [List.getElem?_set_ne (fun he => hkne he.symm)]; exact hkres⟩
    · intro k hk hres
      have hkne : k ≠ t := by
        intro he
        rw [he, List.getElem?_set_self htlen] at hres
        simp at hres
      rw [List.getElem?_set_ne (fun he => hkne he.symm)] at hres
      have hkold := hcov k hk hres
      have := hperm.mem_iff.mp hkold
      rcases List.mem_cons.mp this with he | hnew
      · exact absurd he hkne
      · exact hnew
    · intro k hk
      have hkres := hcle k hk
      have hkne : k ≠ t := by
        intro he
        rw [he, htres] at hkres
        simp at hkres
      rw [List.getElem?_set_ne (fun he => hkne he.symm)]
      exact hkres
  | collectOk pend workers results collected hres =>
    dsimp only at hrl hwl hnd hloc hcov hcol hcle hret
    have hcn : collected < results.length := (List.getElem?_eq_some.mp hres).1
    refine ⟨hrl, hwl, hnd, hloc, hcov, by dsimp only; omega, ?_, ?_⟩
    · intro k hk
      dsimp only at hk
      rcases Nat.lt_succ_iff_lt_or_eq.mp hk with hlt | he
      · exact hcle k hlt
      · rw [he]
        exact hres
    · intro hr
      dsimp only at hr ⊢
      by_cases hn : collected + 1 = n
      · exact hn
      · rw [if_neg hn] at hr
        exact absurd hr (by simp)
  | collectErr pend workers results collected e hres =>
    refine ⟨hrl, hwl, hnd, hloc, hcov, hcol, hcle, ?_⟩
    intro hr
    dsimp only at hr
    exact absurd hr (by simp)

/-- The invariant holds in every reachable state. -/
theorem poolReaches_inv (me : Nat → Option String) (n : Nat) (s : PoolState)
    (h : poolReaches me n s) : PoolInv n s := by
  unfold poolReaches at h
  induction h with
  | refl => exact poolInit_inv n
  | tail _hab hbc ih => exact poolStep_inv me n _ _ hbc ih

/-- In a drained state (no queued and no running member) every member's
result has been delivered. -/
theorem pool_done (n : Nat) (s : PoolState) (hI : PoolInv n s)
    (hp : s.pending = []) (hw : s.workers.filterMap id = []) :
    ∀ k, k < n → ∃ r, s.results[k]? = some (some r) := by
  obtain ⟨hrl, _, _, _, hcov, _, _, _⟩ := hI
  intro k hk
  have hlt : k < s.results.length := hrl ▸ hk
  obtain ⟨a, ha⟩ : ∃ a, s.results[k]? = some a := ⟨s.results[k], List.getElem?_eq_getElem hlt⟩
  cases a with
  | none =>
    have := hcov k hk ha
    rw [hp, hw] at this
    simp at this
  | some r => exact ⟨r, ha⟩

/-- From any invariant-satisfying state the pool can keep stepping until
every member's fetch has been performed and its result delivered: nothing
cancels queued or in-flight members. -/
theorem pool_progress (me : Nat → Option String) (n : Nat) :
    ∀ (fuel : Nat) (s : PoolState), 2 * s.pending.length + poolActive s ≤ fuel →
    PoolInv n s →
    ∃ s2, Relation.ReflTransGen (PoolStep me n) s s2
      ∧ ∀ k, k < n → ∃ r, s2.results[k]? = some (some r) := by
  intro fuel
  induction fuel with
  | zero =>
    intro s hf hI
    have hp : s.pending = [] := by
      cases hsp : s.pending with
      | nil => rfl
      | cons a l =>
        exfalso
        rw [hsp] at hf
        simp only [List.length_cons] at hf
        omega
    have hw : s.workers.filterMap id = [] := by
      have : poolActive s = 0 := by omega
      unfold poolActive at this
      exact List.length_eq_zero.mp this
    exact ⟨s, Relation.ReflTransGen.refl, pool_done n s hI hp hw⟩
  | succ m ih =>
    intro s hf hI
    obtain ⟨pend, workers, results, collected, retval⟩ := s
    by_cases hbusy : ∃ wl t wr, workers = wl ++ some t :: wr
    · obtain ⟨wl, t, wr, rfl⟩ := hbusy
      have hstep : PoolStep me n
          ⟨pend, wl ++ some t :: wr, results, collected, retval⟩
          ⟨pend, wl ++ none :: wr, results.set t (some (me t)), collected, retval⟩ :=
        PoolStep.finish t pend wl wr results collected retval
      have hmeas : 2 * pend.length
          + poolActive ⟨pend, wl ++ none :: wr, results.set t (some (me t)), collected, retval⟩ ≤ m := by
        simp only [poolActive, List.filterMap_append, filterMap_id_cons_some,
          filterMap_id_cons_none] at hf ⊢
        simp only [List.length_append, List.length_cons] at hf ⊢
        omega
      obtain ⟨s2, hs2, hall⟩ := ih _ hmeas (poolStep_inv me n _ _ hstep hI)
      exact ⟨s2, Relation.ReflTransGen.head hstep hs2, hall⟩
    · have hallnone : workers.filterMap id = [] := by
        cases hfm : workers.filterMap id with
        | nil => rfl
        | cons t l =>
          exfalso
          have : t ∈ workers.filterMap id := by rw [hfm]; simp
          rw [List.mem_filterMap] at this
          obtain ⟨o, ho, hoe⟩ := this
          cases o with
          | none => simp at hoe
          | some u =>
            simp at hoe
            obtain ⟨wl, wr, hsplit⟩ := List.append_of_mem ho
            exact hbusy ⟨wl, u, wr, hsplit⟩
      cases pend with
      | nil =>
        exact ⟨_, Relation.ReflTransGen.refl,
          pool_done n _ hI rfl hallnone⟩
      | cons t pend2 =>
        obtain ⟨w0, wrest, rfl⟩ : ∃ w0 wrest, workers = w0 :: wrest := by
          obtain ⟨_, hwl, _⟩ := hI
          cases workers with
          | nil => simp at hwl
          | cons w0 wrest => exact ⟨w0, wrest, rfl⟩
        obtain rfl : w0 = none := by
          cases w0 with
          | none => rfl
          | some u => exact absurd ⟨[], u, wrest, rfl⟩ hbusy
        have hstep : PoolStep me n
            ⟨t :: pend2, none :: wrest, results, collected, retval⟩
            ⟨pend2, some t :: wrest, results, collected, retval⟩ :=
          PoolStep.take t pend2 [] wrest results collected retval
        have hmeas : 2 * pend2.length
            + poolActive ⟨pend2, some t :: wrest, results, collected, retval⟩ ≤ m := by
          simp only [poolActive, filterMap_id_cons_some, filterMap_id_cons_none,
            List.length_cons] at hf ⊢
          omega
        obtain ⟨s2, hs2, hall⟩ := ih _ hmeas (poolStep_inv me n _ _ hstep hI)
        exact ⟨s2, Relation.ReflTransGen.head hstep hs2, hall⟩

/-- C8 (amended): in every reachable state of a static-set expansion at
most 10 member fetches run concurrently, regardless of the set's fan-out;
when the call returns success every member's fetch has completed (with a
nil result) before the return; and from any reachable state — including one
where the call has already returned an error — the remaining member fetches
still run to completion (in-flight and queued siblings are not cancelled),
though on the error path that completion need not precede the return. -/
theorem pool_bounded_no_cancel (me : Nat → Option String) (n : Nat) (s : PoolState)
    (h : poolReaches me n s) :
    poolActive s ≤ 10
    ∧ (s.retval = some none → ∀ k, k < n → s.results[k]? = some (some none))
    ∧ ∃ s2, Relation.ReflTransGen (PoolStep me n) s s2
        ∧ ∀ k, k < n → ∃ r, s2.results[k]? = some (some r) := by
  have hI := poolReaches_inv me n s h
  obtain ⟨hrl, hwl, hnd, hloc, hcov, hcol, hcle, hret⟩ := hI
  refine ⟨?_, ?_, ?_⟩
  · calc poolActive s ≤ s.workers.length := List.length_filterMap_le _ _
      _ = 10 := hwl
  · intro hr k hk
    have hc := hret hr
    exact hcle k (by omega)
  · exact pool_progress me n (2 * s.pending.length + poolActive s) s (le_refl _)
      ⟨hrl, hwl, hnd, hloc, hcov, hcol, hcle, hret⟩

/-- Concrete instance of `pool_bounded_no_cancel` at the initial state of a
one-member expansion. -/
theorem pool_bounded_no_cancel_witness :
    poolActive (poolInit 1) ≤ 10
    ∧ ((poolInit 1).retval = some none → ∀ k, k < 1 → (poolInit 1).results[k]? = some (some none))
    ∧ ∃ s2, Relation.ReflTransGen (PoolStep memberErrBoom 1) (poolInit 1) s2
        ∧ ∀ k, k < 1 → ∃ r, s2.results[k]? = some (some r) :=
  pool_bounded_no_cancel memberErrBoom 1 (poolInit 1) Relation.ReflTransGen.refl

/-- C8 counterexample: in a two-member expansion whose first member fails,
the call can return the first error (`retval` set) while member 1 is still
queued and its fetch result undelivered — so it is NOT the case that all
spawned member-fetch work completes before the call returns. -/
theorem pool_returns_before_all_work_done :
    poolReaches memberErrBoom 2 poolCounterState
    ∧ poolCounterState.retval = some (some "boom")
    ∧ poolCounterState.results[1]? = some none
    ∧ poolCounterState.pending = [1] := by
  refine ⟨?_, rfl, rfl, rfl⟩
  have h1 : PoolStep memberErrBoom 2 (poolInit 2)
      ⟨[1], [] ++ some 0 :: List.replicate 9 none, [none, none], 0, none⟩ := by
    have hini : poolInit 2
        = ⟨0 :: [1], [] ++ none :: List.replicate 9 none, [none, none], 0, none⟩ := rfl
    rw [hini]
    exact PoolStep.take 0 [1] [] (List.replicate 9 none) [none, none] 0 none
  have h2 : PoolStep memberErrBoom 2
      ⟨[1], [] ++ some 0 :: List.replicate 9 none, [none, none], 0, none⟩
      ⟨[1], [] ++ none :: List.replicate 9 none, [some (some "boom"), none], 0, none⟩ :=
    PoolStep.finish 0 [1] [] (List.replicate 9 none) [none, none] 0 none
  have h3 : PoolStep memberErrBoom 2
      ⟨[1], [] ++ none :: List.replicate 9 none, [some (some "boom"), none], 0, none⟩
      poolCounterState :=
    PoolStep.collectErr [1] ([] ++ none :: List.replicate 9 none)
      [some (some "boom"), none] 0 "boom" rfl
  exact Relation.ReflTransGen.head h1
    (Relation.ReflTransGen.head h2 (Relation.ReflTransGen.single h3))

/-- Induction on byte lists in the 3-byte groups of the base64 encoder. -/
theorem bytes3Induction {motive : List Nat → Prop}
    (h0 : motive []) (h1 : ∀ a, motive [a]) (h2 : ∀ a b, motive [a, b])
    (h3 : ∀ a b c rest, motive rest → motive (a :: b :: c :: rest)) :
    ∀ l, motive l
  | [] => h0
  | [a] => h1 a
  | [a, b] => h2 a b
  | a :: b :: c :: rest => h3 a b c rest (bytes3Induction h0 h1 h2 h3 rest)

/-- Induction on character lists in the 2-character groups of hex. -/
theorem chars2Induction {motive : List Char → Prop}
    (h0 : motive []) (h1 : ∀ a, motive [a])
    (h2 : ∀ a b rest, motive rest → motive (a :: b :: rest)) : ∀ l, motive l
  | [] => h0
  | [a] => h1 a
  | a :: b :: rest => h2 a b rest (chars2Induction h0 h1 h2 rest)

theorem b64Val_b64Char : ∀ n, n < 64 → b64Val (b64Char n) = some n := by decide

theorem b64Char_ne_pad : ∀ n, n < 64 → ¬(b64Char n = '=') := by decide

theorem base64urlEncode_ne_nil : ∀ (bs : List Nat), bs ≠ [] → base64urlEncode bs ≠ [] := by
  intro bs h
  match bs with
  | [] => exact absurd rfl h
  | [a] => simp [base64urlEncode]
  | [a, b] => simp [base64urlEncode]
  | a :: b :: c :: rest => simp [base64urlEncode]

/-- Decoding inverts encoding on byte lists. -/
theorem base64url_decode_encode :
    ∀ bs : List Nat, (∀ b ∈ bs, b < 256) → base64urlDecode (base64urlEncode bs) = some bs := by
  intro bs
  induction bs using bytes3Induction with
  | h0 => intro _; rfl
  | h1 a =>
    intro h
    have ha : a < 256 := h a (by simp)
    show base64urlDecode [b64Char (a / 4), b64Char (a % 4 * 16), '=', '='] = some [a]
    rw [base64urlDecode]
    rw [b64Val_b64Char _ (by omega), b64Val_b64Char _ (by omega)]
    simp
    omega
  | h2 a b =>
    intro h
    have ha : a < 256 := h a (by simp)
    have hb : b < 256 := h b (by simp)
    show base64urlDecode
        [b64Char (a / 4), b64Char (a % 4 * 16 + b / 16), b64Char (b % 16 * 4), '='] = some [a, b]
    rw [base64urlDecode]
    rw [b64Val_b64Char _ (by omega), b64Val_b64Char _ (by omega), b64Val_b64Char _ (by omega)]
    rw [if_neg (b64Char_ne_pad _ (by omega))]
    simp
    constructor <;> omega
  | h3 a b c rest ih =>
    intro h
    have ha : a < 256 := h a (by simp)
    have hb : b < 256 := h b (by simp)
    have hc : c < 256 := h c (by simp)
    show base64urlDecode (b64Char (a / 4) :: b64Char (a % 4 * 16 + b / 16)
        :: b64Char (b % 16 * 4 + c / 64) :: b64Char (c % 64) :: base64urlEncode rest)
      = some (a :: b :: c :: rest)
    by_cases hrest : rest = []
    · subst hrest
      show base64urlDecode [b64Char (a / 4), b64Char (a % 4 * 16 + b / 16),
          b64Char (b % 16 * 4 + c / 64), b64Char (c % 64)] = some [a, b, c]
      rw [base64urlDecode]
      rw [b64Val_b64Char _ (by omega), b64Val_b64Char _ (by omega),
        b64Val_b64Char _ (by omega), b64Val_b64Char _ (by omega)]
      rw [if_neg (b64Char_ne_pad _ (by omega)), if_neg (b64Char_ne_pad _ (by omega))]
      simp
      refine ⟨by omega, by omega, by omega⟩
    · have hne : base64urlEncode rest ≠ [] := base64urlEncode_ne_nil rest hrest
      have hempty : (base64urlEncode rest).isEmpty = false := by
        cases hE : base64urlEncode rest with
        | nil => exact absurd hE hne
        | cons x xs => rfl
      rw [base64urlDecode]
      rw [b64Val_b64Char _ (by omega), b64Val_b64Char _ (by omega),
        b64Val_b64Char _ (by omega), b64Val_b64Char _ (by omega)]
      rw [ih (fun x hx => h x (by simp [hx])), hempty]
      simp
      refine ⟨by omega, by omega, by omega⟩

/-- A lowercase hex character is `hexVal`-decodable and `hexDigitChar`
re-encodes it. -/
theorem hexVal_spec (c : Char) (h : isHexLowerCh c = true) :
    ∃ v, hexVal c = some v ∧ v < 16 ∧ hexDigitChar v = c := by
  unfold isHexLowerCh at h
  simp only [Bool.or_eq_true, Bool.and_eq_true, decide_eq_true_eq] at h
  rcases h with ⟨h1, h2⟩ | ⟨h1, h2⟩
  · have t1 : (48 : Nat) ≤ c.toNat := h1
    have t2 : c.toNat ≤ 57 := h2
    refine ⟨c.toNat - 48, ?_, by omega, ?_⟩
    · unfold hexVal
      rw [if_pos (by simp [h1, h2])]
    · unfold hexDigitChar
      rw [if_pos (by omega)]
      rw [show 48 + (c.toNat - 48) = c.toNat from by omega, Char.ofNat_toNat]
  · have t1 : (97 : Nat) ≤ c.toNat := h1
    have t2 : c.toNat ≤ 102 := h2
    refine ⟨c.toNat - 87, ?_, by omega, ?_⟩
    · unfold hexVal
      rw [if_neg (by
        simp only [Bool.and_eq_true, decide_eq_true_eq, not_and]
        intro _ hx
        have t3 : c.toNat ≤ 57 := hx
        omega)]
      rw [if_pos (by simp [h1, h2])]
    · unfold hexDigitChar
      rw [if_neg (by omega)]
      rw [show 87 + (c.toNat - 87) = c.toNat from by omega, Char.ofNat_toNat]

/-- A valid even-length lowercase hex string decodes to bytes that encode
back to it. -/
theorem hexDecode_spec :
    ∀ (s : List Char), s.length % 2 = 0 → (∀ c ∈ s, isHexLowerCh c = true) →
    ∃ bs, hexDecode s = some bs ∧ hexEncode bs = s
      ∧ (∀ b ∈ bs, b < 256) ∧ bs.length * 2 = s.length := by
  intro s
  induction s using chars2Induction with
  | h0 => intro _ _; exact ⟨[], rfl, rfl, by simp, rfl⟩
  | h1 a => intro hl _; simp at hl
  | h2 c1 c2 rest ih =>
    intro hl hhex
    obtain ⟨bs, hdec, henc, hbound, hlen2⟩ :=
      ih (by simp only [List.length_cons] at hl ⊢; omega)
        (fun c hc => hhex c (by simp [hc]))
    obtain ⟨v1, hv1, hv1lt, hc1⟩ := hexVal_spec c1 (hhex c1 (by simp))
    obtain ⟨v2, hv2, hv2lt, hc2⟩ := hexVal_spec c2 (hhex c2 (by simp))
    refine ⟨(v1 * 16 + v2) :: bs, ?_, ?_, ?_, ?_⟩
    · rw [hexDecode, hv1, hv2, hdec]
      rfl
    · show hexDigitChar ((v1 * 16 + v2) / 16) :: hexDigitChar ((v1 * 16 + v2) % 16)
          :: hexEncode bs = c1 :: c2 :: rest
      rw [show (v1 * 16 + v2) / 16 = v1 from by omega,
        show (v1 * 16 + v2) % 16 = v2 from by omega, hc1, hc2, henc]
    · intro b hb
      rcases List.mem_cons.mp hb with he | hm
      · omega
      · exact hbound b hm
    · simp only [List.length_cons]
      omega

theorem base64urlEncode_length :
    ∀ bs : List Nat, (base64urlEncode bs).length = 4 * ((bs.length + 2) / 3) := by
  intro bs
  induction bs using bytes3Induction with
  | h0 => rfl
  | h1 a => simp [base64urlEncode]
  | h2 a b => simp [base64urlEncode]
  | h3 a b c rest ih =>
    show (b64Char (a / 4) :: b64Char (a % 4 * 16 + b / 16)
        :: b64Char (b % 16 * 4 + c / 64) :: b64Char (c % 64)
        :: base64urlEncode rest).length = 4 * (((a :: b :: c :: rest).length + 2) / 3)
    simp only [List.length_cons, ih]
    omega

/-- A parse success yields a valid reference. -/
theorem blobParse_valid (R : List Char) (br : BlobRef) (h : blobParse R = some br) :
    br.valid = true := by
  unfold blobParse at h
  split at h
  · exact absurd h (by simp)
  · rename_i i heq
    dsimp only at h
    split at h
    · exact absurd h (by simp)
    · rename_i n heqa
      split at h
      · rename_i hcond
        simp only [Option.some.injEq] at h
        subst h
        unfold BlobRef.valid
        dsimp only
        rw [heqa]
        simpa using hcond
      · exact absurd h (by simp)

/-- C3: for every valid canonical reference text `R`, re-decoding the
base64-short form of `parse(R)` through `Base64ToRef` yields the parsed
reference back: `fromShort (toShort (parse R)) = parse R`. -/
theorem fromShort_toShort_roundtrip (R : List Char) (br : BlobRef)
    (h : blobParse R = some br) :
    Base64ToRef (RefToBase64 br) = Except.ok br := by
  obtain ⟨halgo, hlen, hhex⟩ := valid_sha1 br (blobParse_valid R br h)
  obtain ⟨bs, hdec, henc, hbound, hlen2⟩ := hexDecode_spec br.digest (by omega) hhex
  have hbs20 : bs.length = 20 := by omega
  have hshort : RefToBase64 br = "sha1".data ++ '-' :: base64urlEncode bs := by
    unfold RefToBase64
    rw [halgo, hdec]
    rfl
  have helen : (base64urlEncode bs).length = 28 := by
    rw [base64urlEncode_length, hbs20]
  have hlen33 : ("sha1".data ++ '-' :: base64urlEncode bs).length ≤ 128 := by
    have h33 : ("sha1".data ++ '-' :: base64urlEncode bs).length = 33 := by
      rw [show "sha1".data = ['s', 'h', 'a', '1'] from rfl]
      simp [helen]
    omega
  rw [hshort]
  unfold Base64ToRef
  dsimp only
  rw [List.take_of_length_le hlen33]
  rw [indexOfDash_append "sha1".data (base64urlEncode bs) (by decide)]
  dsimp only
  rw [show ("sha1".data).length = 4 from rfl]
  rw [show ("sha1".data ++ '-' :: base64urlEncode bs).drop (4 + 1) = base64urlEncode bs from by
    rw [show "sha1".data = ['s', 'h', 'a', '1'] from rfl]
    rfl]
  rw [base64url_decode_encode bs hbound]
  dsimp only
  rw [if_neg (by omega)]
  rw [show ("sha1".data ++ '-' :: base64urlEncode bs).take 4 = "sha1".data from by
    rw [show "sha1".data = ['s', 'h', 'a', '1'] from rfl]
    rfl]
  rw [show goToLower "sha1".data = "sha1".data from rfl]
  rw [henc]
  have hparse : blobParse ("sha1".data ++ '-' :: br.digest) = some br := by
    unfold blobParse
    rw [indexOfDash_append "sha1".data br.digest (by decide)]
    dsimp only
    rw [show ("sha1".data).length = 4 from rfl]
    rw [show ("sha1".data ++ '-' :: br.digest).take 4 = "sha1".data from by
      rw [show "sha1".data = ['s', 'h', 'a', '1'] from rfl]
      rfl]
    rw [show ("sha1".data ++ '-' :: br.digest).drop (4 + 1) = br.digest from by
      rw [show "sha1".data = ['s', 'h', 'a', '1'] from rfl]
      rfl]
    rw [show algoHexLen "sha1".data = some 40 from rfl]
    dsimp only
    rw [if_pos (by
      simp only [Bool.and_eq_true, decide_eq_true_eq]
      exact ⟨hlen, List.all_eq_true.mpr hhex⟩)]
    cases br with
    | mk algo digest =>
      dsimp only at halgo ⊢
      rw [halgo]
  rw [hparse]

/-- Concrete instance of `fromShort_toShort_roundtrip` on a full sha1
reference. -/
theorem fromShort_toShort_roundtrip_witness :
    Base64ToRef (RefToBase64
        ⟨"sha1".data, "0123456789abcdef0123456789abcdef01234567".data⟩)
      = Except.ok ⟨"sha1".data, "0123456789abcdef0123456789abcdef01234567".data⟩ :=
  fromShort_toShort_roundtrip
    "sha1-0123456789abcdef0123456789abcdef01234567".data _ (by decide)
